import Mathlib

/-!
# EvKey macro-state core: shallow embedding and verification

A shallow embedding of `src/state.rs` (the events↔states macro core) and
`src/keymap.rs` (QWERTY keycode↔name lookup) of the EvKey repository,
together with proofs of the specification's claims about them.

Modelling conventions:
* `u64` / `u16` values are modelled as `ℕ` (no arithmetic in the source can
  underflow: the only subtraction is `saturating_sub`, modelled by truncated
  `ℕ` subtraction).
* `i32` accumulator values are modelled as `ℤ`.
* Rust's `HashSet<u16>` is modelled as `Finset ℕ`; where the source iterates
  a `HashSet` (whose iteration order is unspecified) the embedding iterates
  the ascending enumeration `Finset.sort (· ≤ ·)`.
* evdev event types are the numeric constants of the device layer:
  `EV_SYN = 0`, `EV_KEY = 1`, `EV_REL = 2`.
-/

namespace EvKey

/-- evdev `EventType::SYNCHRONIZATION`. -/
def EV_SYN : ℕ := 0
/-- evdev `EventType::KEY`. -/
def EV_KEY : ℕ := 1
/-- evdev `EventType::RELATIVE`. -/
def EV_REL : ℕ := 2

/-- A recorded input event (`RecordedEvent` wrapping an `InputEvent`):
timestamp in microseconds, the numeric evdev event type, the key/axis code
and the signed value. -/
structure RecordedEvent where
  timestamp_us : ℕ
  event_type : ℕ
  code : ℕ
  value : ℤ
deriving DecidableEq, Repr

/-- `MacroState` of `state.rs`: which keys are held and for how long. -/
structure MacroState where
  duration_ms : ℕ
  keys_pressed : Finset ℕ
  mouse_delta : ℤ × ℤ
  scroll_delta : ℤ × ℤ
deriving DecidableEq

/-- The key-set update a `KEY` event performs: value 1 inserts the code,
value 0 removes it, anything else (key repeat) is a no-op. -/
def updateKeys (ks : Finset ℕ) (code : ℕ) (value : ℤ) : Finset ℕ :=
  if value = 1 then insert code ks
  else if value = 0 then ks.erase code
  else ks

/-- The running accumulators of `events_to_states`' main loop. -/
structure BuildAcc where
  states : List MacroState
  current_keys : Finset ℕ
  last_timestamp_us : ℕ
  accumulated_mouse : ℤ × ℤ
  accumulated_scroll : ℤ × ℤ
deriving DecidableEq

/-- Initial accumulators of `events_to_states`. -/
def buildInit : BuildAcc := ⟨[], ∅, 0, (0, 0), (0, 0)⟩

/-- The flush step at the top of the loop body: if time has passed and the
elapsed milliseconds are positive, push the current snapshot and reset the
mouse and scroll accumulators. -/
def flush (acc : BuildAcc) (e : RecordedEvent) : BuildAcc :=
  let elapsed_us := e.timestamp_us - acc.last_timestamp_us
  if 0 < elapsed_us then
    let duration_ms := elapsed_us / 1000
    if 0 < duration_ms then
      { acc with
        states := acc.states ++
          [⟨duration_ms, acc.current_keys, acc.accumulated_mouse, acc.accumulated_scroll⟩],
        accumulated_mouse := (0, 0),
        accumulated_scroll := (0, 0) }
    else acc
  else acc

/-- The event-processing step of the loop body: apply the event's effect to
the accumulators and record its timestamp. -/
def applyEvent (acc : BuildAcc) (e : RecordedEvent) : BuildAcc :=
  let acc1 :=
    if e.event_type = EV_KEY then
      { acc with current_keys := updateKeys acc.current_keys e.code e.value }
    else if e.event_type = EV_REL then
      if e.code = 0 then
        { acc with accumulated_mouse := (acc.accumulated_mouse.1 + e.value, acc.accumulated_mouse.2) }
      else if e.code = 1 then
        { acc with accumulated_mouse := (acc.accumulated_mouse.1, acc.accumulated_mouse.2 + e.value) }
      else if e.code = 8 then
        { acc with accumulated_scroll := (acc.accumulated_scroll.1 + e.value, acc.accumulated_scroll.2) }
      else if e.code = 6 then
        { acc with accumulated_scroll := (acc.accumulated_scroll.1, acc.accumulated_scroll.2 + e.value) }
      else acc
    else acc
  { acc1 with last_timestamp_us := e.timestamp_us }

/-- One full iteration of `events_to_states`' loop. -/
def step (acc : BuildAcc) (e : RecordedEvent) : BuildAcc :=
  applyEvent (flush acc e) e

/-- The final state pushed after the loop when keys are still pressed or
actions remain. -/
def finalStates (acc : BuildAcc) : List MacroState :=
  if acc.current_keys ≠ ∅ ∨ acc.accumulated_mouse ≠ (0, 0) ∨ acc.accumulated_scroll ≠ (0, 0) then
    [⟨0, acc.current_keys, acc.accumulated_mouse, acc.accumulated_scroll⟩]
  else []

/-- The jitter filter: mouse deltas of Manhattan distance below 5 are zeroed. -/
def jitterFilter (s : MacroState) : MacroState :=
  if s.mouse_delta.1.natAbs + s.mouse_delta.2.natAbs < 5 then
    { s with mouse_delta := (0, 0) }
  else s

/-- The merge condition of `merge_consecutive_states`: identical key sets and
no mouse or scroll motion on either side. -/
def mergeCond (a b : MacroState) : Prop :=
  a.keys_pressed = b.keys_pressed ∧ a.mouse_delta = (0, 0) ∧ b.mouse_delta = (0, 0) ∧
    a.scroll_delta = (0, 0) ∧ b.scroll_delta = (0, 0)

instance (a b : MacroState) : Decidable (mergeCond a b) := by
  unfold mergeCond; infer_instance

/-- Tail-worker of `merge_consecutive_states`: `current` is the running
accumulator state, merged with the next state whenever the keys match and
neither carries mouse or scroll motion. -/
def mergeAux (current : MacroState) : List MacroState → List MacroState
  | [] => [current]
  | s :: rest =>
    if mergeCond current s then
      mergeAux { current with duration_ms := current.duration_ms + s.duration_ms } rest
    else
      current :: mergeAux s rest

/-- `merge_consecutive_states` of `state.rs`. -/
def merge_consecutive_states : List MacroState → List MacroState
  | [] => []
  | s :: rest => mergeAux s rest

/-- `events_to_states` of `state.rs`: loop, final state, jitter filter,
run-length merge. -/
def events_to_states (events : List RecordedEvent) : List MacroState :=
  if events.isEmpty then []
  else
    let acc := events.foldl step buildInit
    merge_consecutive_states (((acc.states ++ finalStates acc).map jitterFilter))

/-! ## State player (`states_to_events`) -/

/-- A `KEY` event at a given timestamp: `InputEvent::new(EventType::KEY.0, code, value)`. -/
def keyEvent (ts code : ℕ) (value : ℤ) : RecordedEvent := ⟨ts, EV_KEY, code, value⟩

/-- A `SYNCHRONIZATION` event: `InputEvent::new(EventType::SYNCHRONIZATION.0, 0, 0)`. -/
def synEvent (ts : ℕ) : RecordedEvent := ⟨ts, EV_SYN, 0, 0⟩

/-- A `RELATIVE` event: `InputEvent::new(EventType::RELATIVE.0, code, value)`. -/
def relEvent (ts code : ℕ) (value : ℤ) : RecordedEvent := ⟨ts, EV_REL, code, value⟩

/-- Release + Synchronization pair for each listed key. -/
def releasePairs (ts : ℕ) (keys : List ℕ) : List RecordedEvent :=
  keys.flatMap fun k => [keyEvent ts k 0, synEvent ts]

/-- Press + Synchronization pair for each listed key. -/
def pressPairs (ts : ℕ) (keys : List ℕ) : List RecordedEvent :=
  keys.flatMap fun k => [keyEvent ts k 1, synEvent ts]

/-- The mouse-movement events of one state: one event per non-zero axis
(x then y), followed by a Synchronization event, when the delta is non-zero. -/
def mouseEvents (ts : ℕ) (delta : ℤ × ℤ) : List RecordedEvent :=
  if delta ≠ (0, 0) then
    (if delta.1 ≠ 0 then [relEvent ts 0 delta.1] else []) ++
    (if delta.2 ≠ 0 then [relEvent ts 1 delta.2] else []) ++ [synEvent ts]
  else []

/-- The scroll events of one state: vertical (code 8) then horizontal (code 6),
followed by a Synchronization event, when the delta is non-zero. -/
def scrollEvents (ts : ℕ) (delta : ℤ × ℤ) : List RecordedEvent :=
  if delta ≠ (0, 0) then
    (if delta.1 ≠ 0 then [relEvent ts 8 delta.1] else []) ++
    (if delta.2 ≠ 0 then [relEvent ts 6 delta.2] else []) ++ [synEvent ts]
  else []

/-- The running accumulators of `states_to_events`' main loop. -/
structure PlayAcc where
  events : List RecordedEvent
  timestamp_us : ℕ
  current_keys : Finset ℕ
deriving DecidableEq

/-- Initial accumulators of `states_to_events`. -/
def playInit : PlayAcc := ⟨[], 0, ∅⟩

/-- One iteration of `states_to_events`' loop: release keys no longer held,
press new keys, emit motion and scroll, update the key set and the clock.
The source iterates `HashSet` differences whose order is unspecified; the
embedding fixes the ascending order. -/
def playStep (acc : PlayAcc) (state : MacroState) : PlayAcc :=
  let ts := acc.timestamp_us
  let keys_to_release := (acc.current_keys \ state.keys_pressed).sort (· ≤ ·)
  let keys_to_press := (state.keys_pressed \ acc.current_keys).sort (· ≤ ·)
  { events := acc.events ++ releasePairs ts keys_to_release ++ pressPairs ts keys_to_press ++
      mouseEvents ts state.mouse_delta ++ scrollEvents ts state.scroll_delta,
    timestamp_us := ts + state.duration_ms * 1000,
    current_keys := state.keys_pressed }

/-- `states_to_events` of `state.rs`: the loop, then a release +
Synchronization pair for every key still held, at the final clock value. -/
def states_to_events (states : List MacroState) : List RecordedEvent :=
  let acc := states.foldl playStep playInit
  acc.events ++ releasePairs acc.timestamp_us (acc.current_keys.sort (· ≤ ·))

/-! ## Replay semantics

The net held-key set obtained by replaying an event stream: `KEY` events
update the set exactly as the builder's key tracking does; all other events
leave it unchanged. -/

/-- Effect of one replayed event on the held-key set. -/
def replayStep (ks : Finset ℕ) (e : RecordedEvent) : Finset ℕ :=
  if e.event_type = EV_KEY then updateKeys ks e.code e.value else ks

/-- Replay an event stream from a given held-key set. -/
def replayKeysFrom (ks : Finset ℕ) (es : List RecordedEvent) : Finset ℕ :=
  es.foldl replayStep ks

/-- Net held-key set after replaying an event stream from an empty set. -/
def replayKeys (es : List RecordedEvent) : Finset ℕ := replayKeysFrom ∅ es

/-! ## Keymap (`keymap.rs`) -/

/-- Rust `char::to_uppercase` restricted to its ASCII action, which is total
on the map's names: lowercase ASCII letters are shifted to uppercase. -/
def toUpperChar (c : Char) : Char :=
  if 97 ≤ c.toNat ∧ c.toNat ≤ 122 then Char.ofNat (c.toNat - 32) else c

/-- Rust `str::to_uppercase` (ASCII action). -/
def to_uppercase (s : String) : String := ⟨s.data.map toUpperChar⟩

/-- The insertion list of `get_qwerty_map`'s `HashMap::from`. All keycodes
and all names are pairwise distinct, so lookup order is immaterial. -/
def qwerty_pairs : List (ℕ × String) :=
  [(16, "Q"), (17, "W"), (18, "E"), (19, "R"), (20, "T"), (21, "Y"), (22, "U"),
   (23, "I"), (24, "O"), (25, "P"), (30, "A"), (31, "S"), (32, "D"), (33, "F"),
   (34, "G"), (35, "H"), (36, "J"), (37, "K"), (38, "L"), (44, "Z"), (45, "X"),
   (46, "C"), (47, "V"), (48, "B"), (49, "N"), (50, "M"),
   (2, "1"), (3, "2"), (4, "3"), (5, "4"), (6, "5"), (7, "6"), (8, "7"),
   (9, "8"), (10, "9"), (11, "0"), (12, "MINUS"), (13, "EQUAL"),
   (59, "F1"), (60, "F2"), (61, "F3"), (62, "F4"), (63, "F5"), (64, "F6"),
   (65, "F7"), (66, "F8"), (67, "F9"), (68, "F10"), (87, "F11"), (88, "F12"),
   (1, "ESC"), (14, "BACKSPACE"), (15, "TAB"), (28, "ENTER"), (29, "CTRL"),
   (42, "SHIFT"), (54, "RIGHTSHIFT"), (56, "ALT"), (57, "SPACE"),
   (58, "CAPSLOCK"), (97, "RIGHTCTRL"), (100, "RIGHTALT"),
   (102, "HOME"), (103, "UP"), (104, "PAGEUP"), (105, "LEFT"), (106, "RIGHT"),
   (107, "END"), (108, "DOWN"), (109, "PAGEDOWN"), (110, "INSERT"), (111, "DELETE"),
   (26, "LEFTBRACE"), (27, "RIGHTBRACE"), (39, "SEMICOLON"), (40, "APOSTROPHE"),
   (41, "GRAVE"), (43, "BACKSLASH"), (51, "COMMA"), (52, "DOT"), (53, "SLASH"),
   (55, "KPASTERISK"), (71, "KP7"), (72, "KP8"), (73, "KP9"), (74, "KPMINUS"),
   (75, "KP4"), (76, "KP5"), (77, "KP6"), (78, "KPPLUS"), (79, "KP1"),
   (80, "KP2"), (81, "KP3"), (82, "KP0"), (83, "KPDOT"), (96, "KPENTER"),
   (98, "KPSLASH"), (272, "BTN_LEFT"), (273, "BTN_RIGHT"), (274, "BTN_MIDDLE")]

/-- `keycode_to_name`: lookup by keycode in the QWERTY map. -/
def keycode_to_name (keycode : ℕ) : Option String :=
  (qwerty_pairs.find? fun p => p.1 == keycode).map (·.2)

/-- `name_to_keycode`: uppercase the query, then look it up in the reverse map. -/
def name_to_keycode (name : String) : Option ℕ :=
  (qwerty_pairs.find? fun p => p.2 == to_uppercase name).map (·.1)

/-! ## Derived quantities used by the claims -/

/-- Total duration of a state sequence, in milliseconds. -/
def sumDur (l : List MacroState) : ℕ := (l.map (·.duration_ms)).sum

/-- Drop a trailing zero-duration terminal state, keeping everything else. -/
def exclTrailingZero (l : List MacroState) : List MacroState :=
  match l.getLast? with
  | some s => if s.duration_ms = 0 then l.dropLast else l
  | none => l

/-- keys_pressed of the last state of a sequence, or `∅` when it is empty. -/
def lastKeys (states : List MacroState) : Finset ℕ :=
  (states.map (·.keys_pressed)).getLastD ∅

/-- Per-event elapsed milliseconds accumulated by the builder's loop, starting
from a given running timestamp. -/
def sumElapsed (last : ℕ) : List RecordedEvent → ℕ
  | [] => 0
  | e :: es => (e.timestamp_us - last) / 1000 + sumElapsed e.timestamp_us es

/-- Scenario B input: key 17 pressed at 0 µs, released at 100000 µs, key 30
pressed at 6100000 µs, released at 6200000 µs. -/
def scenario_b_events : List RecordedEvent :=
  [⟨0, EV_KEY, 17, 1⟩, ⟨100000, EV_KEY, 17, 0⟩,
   ⟨6100000, EV_KEY, 30, 1⟩, ⟨6200000, EV_KEY, 30, 0⟩]

/-- Input refuting the duration-accounting claim: key 17 pressed at
1000000 µs and released at 2000000 µs (timestamps non-decreasing). -/
def accounting_events : List RecordedEvent :=
  [⟨1000000, EV_KEY, 17, 1⟩, ⟨2000000, EV_KEY, 17, 0⟩]

/-- Input refuting the leading-state claim: a release of an unheld key at
2000 µs, then key 17 pressed at 4000 µs and released at 4100 µs. -/
def leading_events : List RecordedEvent :=
  [⟨2000, EV_KEY, 30, 0⟩, ⟨4000, EV_KEY, 17, 1⟩, ⟨4100, EV_KEY, 17, 0⟩]

/-! ## Lemmas about the run-length merge pass -/

theorem mergeAux_ne_nil (l : List MacroState) (c : MacroState) : mergeAux c l ≠ [] := by
  induction l generalizing c with
  | nil => simp [mergeAux]
  | cons s rest ih =>
    unfold mergeAux
    split
    · exact ih _
    · simp

theorem mergeAux_head (l : List MacroState) (c : MacroState) :
    ∃ u t, mergeAux c l = u :: t ∧ u.keys_pressed = c.keys_pressed ∧
      u.mouse_delta = c.mouse_delta ∧ u.scroll_delta = c.scroll_delta ∧
      c.duration_ms ≤ u.duration_ms := by
  induction l generalizing c with
  | nil => exact ⟨c, [], rfl, rfl, rfl, rfl, Nat.le_refl _⟩
  | cons s rest ih =>
    unfold mergeAux
    split
    · obtain ⟨u, t, h, hk, hm, hs, hd⟩ := ih { c with duration_ms := c.duration_ms + s.duration_ms }
      exact ⟨u, t, h, hk, hm, hs, Nat.le_trans (Nat.le_add_right _ _) hd⟩
    · exact ⟨c, mergeAux s rest, rfl, rfl, rfl, rfl, Nat.le_refl _⟩

theorem mergeAux_chain (l : List MacroState) (c : MacroState) :
    List.Chain' (fun a b => ¬ mergeCond a b) (mergeAux c l) := by
  induction l generalizing c with
  | nil => simp [mergeAux]
  | cons s rest ih =>
    unfold mergeAux
    split
    · exact ih _
    · rename_i hnc
      obtain ⟨u, t, h, hk, hm, hs, _⟩ := mergeAux_head rest s
      rw [h]
      refine List.chain'_cons.mpr ⟨?_, h ▸ ih s⟩
      intro hcu
      exact hnc ⟨hcu.1.trans hk, hcu.2.1, hm.symm.trans hcu.2.2.1,
        hcu.2.2.2.1, hs.symm.trans hcu.2.2.2.2⟩

theorem merge_chain (l : List MacroState) :
    List.Chain' (fun a b => ¬ mergeCond a b) (merge_consecutive_states l) := by
  cases l with
  | nil => simp [merge_consecutive_states]
  | cons s rest => exact mergeAux_chain rest s

theorem mergeAux_of_chain (l : List MacroState) (c : MacroState)
    (h : List.Chain' (fun a b => ¬ mergeCond a b) (c :: l)) : mergeAux c l = c :: l := by
  induction l generalizing c with
  | nil => rfl
  | cons s rest ih =>
    rw [List.chain'_cons] at h
    unfold mergeAux
    rw [if_neg h.1, ih s h.2]

theorem merge_of_chain (l : List MacroState)
    (h : List.Chain' (fun a b => ¬ mergeCond a b) l) :
    merge_consecutive_states l = l := by
  cases l with
  | nil => rfl
  | cons s rest => exact mergeAux_of_chain rest s h

theorem mergeAux_mouse (Q : ℤ × ℤ → Prop) (l : List MacroState) (c : MacroState)
    (hc : Q c.mouse_delta) (hl : ∀ x ∈ l, Q x.mouse_delta) :
    ∀ s ∈ mergeAux c l, Q s.mouse_delta := by
  induction l generalizing c with
  | nil =>
    intro s hs
    simp only [mergeAux, List.mem_singleton] at hs
    exact hs ▸ hc
  | cons s rest ih =>
    intro x hx
    unfold mergeAux at hx
    split at hx
    · exact ih { c with duration_ms := c.duration_ms + s.duration_ms } hc
        (fun y hy => hl y (List.mem_cons_of_mem _ hy)) x hx
    · rcases List.mem_cons.mp hx with h | h
      · exact h ▸ hc
      · exact ih s (hl s (List.mem_cons_self _ _))
          (fun y hy => hl y (List.mem_cons_of_mem _ hy)) x h

theorem merge_mouse (Q : ℤ × ℤ → Prop) (l : List MacroState)
    (hl : ∀ x ∈ l, Q x.mouse_delta) :
    ∀ s ∈ merge_consecutive_states l, Q s.mouse_delta := by
  cases l with
  | nil => intro s hs; simp [merge_consecutive_states] at hs
  | cons s rest =>
    exact mergeAux_mouse Q rest s (hl s (List.mem_cons_self _ _))
      (fun y hy => hl y (List.mem_cons_of_mem _ hy))

theorem jitter_bound (s : MacroState) :
    (jitterFilter s).mouse_delta.1.natAbs + (jitterFilter s).mouse_delta.2.natAbs = 0 ∨
      5 ≤ (jitterFilter s).mouse_delta.1.natAbs + (jitterFilter s).mouse_delta.2.natAbs := by
  unfold jitterFilter
  split
  · left; rfl
  · rename_i h; right; omega

/-! ## Claim theorems: scenario B, merge invariants -/

/-- C1: on Scenario B — key 17 pressed at 0 µs, released at 100000 µs, key 30
pressed at 6100000 µs, released at 6200000 µs — `events_to_states` returns
exactly the three states {100 ms, {17}, zero deltas}, {6000 ms, ∅, zero
deltas}, {100 ms, {30}, zero deltas}. -/
theorem events_to_states_scenario_b :
    events_to_states scenario_b_events =
      [⟨100, {17}, (0, 0), (0, 0)⟩, ⟨6000, ∅, (0, 0), (0, 0)⟩, ⟨100, {30}, (0, 0), (0, 0)⟩] := by
  decide

/-- C3: for every input event sequence, no two adjacent states returned by
`events_to_states` both have identical `keys_pressed` sets together with zero
`mouse_delta` and zero `scroll_delta` on both sides (the merge condition
`mergeCond` never holds between neighbours). -/
theorem no_adjacent_mergeable (events : List RecordedEvent) :
    List.Chain' (fun a b => ¬ mergeCond a b) (events_to_states events) := by
  rw [events_to_states]
  split
  · simp
  · exact merge_chain _

/-- C4: every state returned by `events_to_states` has a `mouse_delta` whose
Manhattan distance |x|+|y| is 0 or at least 5. -/
theorem jitter_bound_all_states (events : List RecordedEvent) :
    ∀ s ∈ events_to_states events,
      s.mouse_delta.1.natAbs + s.mouse_delta.2.natAbs = 0 ∨
        5 ≤ s.mouse_delta.1.natAbs + s.mouse_delta.2.natAbs := by
  intro s hs
  rw [events_to_states] at hs
  split at hs
  · simp at hs
  · refine merge_mouse (fun d => d.1.natAbs + d.2.natAbs = 0 ∨ 5 ≤ d.1.natAbs + d.2.natAbs)
      _ ?_ s hs
    intro x hx
    obtain ⟨y, _, rfl⟩ := List.mem_map.mp hx
    exact jitter_bound y

/-- Witness for C4 at a concrete input and state. -/
theorem jitter_bound_witness :
    (⟨100, {17}, (0, 0), (0, 0)⟩ : MacroState) ∈ events_to_states scenario_b_events ∧
      ((⟨100, {17}, (0, 0), (0, 0)⟩ : MacroState).mouse_delta.1.natAbs +
          (⟨100, {17}, (0, 0), (0, 0)⟩ : MacroState).mouse_delta.2.natAbs = 0 ∨
        5 ≤ (⟨100, {17}, (0, 0), (0, 0)⟩ : MacroState).mouse_delta.1.natAbs +
          (⟨100, {17}, (0, 0), (0, 0)⟩ : MacroState).mouse_delta.2.natAbs) :=
  ⟨by decide, jitter_bound_all_states scenario_b_events ⟨100, {17}, (0, 0), (0, 0)⟩ (by decide)⟩

/-- C5: the run-length merge pass is idempotent — re-running
`merge_consecutive_states` on its own output is a no-op. -/
theorem merge_idempotent (S : List MacroState) :
    merge_consecutive_states (merge_consecutive_states S) = merge_consecutive_states S :=
  merge_of_chain _ (merge_chain S)

/-! ## Lemmas about the builder's loop -/

theorem applyEvent_states (acc : BuildAcc) (e : RecordedEvent) :
    (applyEvent acc e).states = acc.states := by
  unfold applyEvent
  dsimp only
  split_ifs <;> rfl

theorem step_last (acc : BuildAcc) (e : RecordedEvent) :
    (step acc e).last_timestamp_us = e.timestamp_us := rfl

theorem jitterFilter_duration (s : MacroState) :
    (jitterFilter s).duration_ms = s.duration_ms := by
  unfold jitterFilter
  split <;> rfl

theorem sumDur_append (a b : List MacroState) : sumDur (a ++ b) = sumDur a + sumDur b := by
  simp [sumDur]

theorem sumDur_flush (acc : BuildAcc) (e : RecordedEvent) :
    sumDur (flush acc e).states =
      sumDur acc.states + (e.timestamp_us - acc.last_timestamp_us) / 1000 := by
  unfold flush
  dsimp only
  split_ifs with h1 h2
  · rw [sumDur_append]
    simp [sumDur]
  · omega
  · omega

theorem sumDur_step (acc : BuildAcc) (e : RecordedEvent) :
    sumDur (step acc e).states =
      sumDur acc.states + (e.timestamp_us - acc.last_timestamp_us) / 1000 := by
  unfold step
  rw [applyEvent_states, sumDur_flush]

theorem sumDur_foldl (es : List RecordedEvent) (acc : BuildAcc) :
    sumDur (es.foldl step acc).states = sumDur acc.states + sumElapsed acc.last_timestamp_us es := by
  induction es generalizing acc with
  | nil => simp [sumElapsed]
  | cons e es ih =>
    rw [List.foldl_cons, ih, sumDur_step, step_last, sumElapsed]
    omega

theorem flush_states_pos (acc : BuildAcc) (e : RecordedEvent)
    (h : ∀ s ∈ acc.states, 0 < s.duration_ms) :
    ∀ s ∈ (flush acc e).states, 0 < s.duration_ms := by
  unfold flush
  dsimp only
  split_ifs with h1 h2
  · intro s hs
    rcases List.mem_append.mp hs with h' | h'
    · exact h s h'
    · rw [List.mem_singleton] at h'
      rw [h']
      exact h2
  · exact h
  · exact h

theorem step_states_pos (acc : BuildAcc) (e : RecordedEvent)
    (h : ∀ s ∈ acc.states, 0 < s.duration_ms) :
    ∀ s ∈ (step acc e).states, 0 < s.duration_ms := by
  unfold step
  rw [applyEvent_states]
  exact flush_states_pos acc e h

theorem foldl_states_pos (es : List RecordedEvent) (acc : BuildAcc)
    (h : ∀ s ∈ acc.states, 0 < s.duration_ms) :
    ∀ s ∈ (es.foldl step acc).states, 0 < s.duration_ms := by
  induction es generalizing acc with
  | nil => exact h
  | cons e es ih => exact ih (step acc e) (step_states_pos acc e h)

theorem flush_states_append (acc : BuildAcc) (e : RecordedEvent) :
    ∃ d, (flush acc e).states = acc.states ++ d := by
  unfold flush
  dsimp only
  split_ifs
  · exact ⟨_, rfl⟩
  · exact ⟨[], (List.append_nil _).symm⟩
  · exact ⟨[], (List.append_nil _).symm⟩

theorem step_states_append (acc : BuildAcc) (e : RecordedEvent) :
    ∃ d, (step acc e).states = acc.states ++ d := by
  unfold step
  rw [applyEvent_states]
  exact flush_states_append acc e

theorem foldl_states_append (es : List RecordedEvent) (acc : BuildAcc) :
    ∃ d, (es.foldl step acc).states = acc.states ++ d := by
  induction es generalizing acc with
  | nil => exact ⟨[], (List.append_nil _).symm⟩
  | cons e es ih =>
    obtain ⟨d1, h1⟩ := step_states_append acc e
    obtain ⟨d2, h2⟩ := ih (step acc e)
    exact ⟨d1 ++ d2, by rw [List.foldl_cons, h2, h1, List.append_assoc]⟩

theorem sumDur_finalStates (acc : BuildAcc) : sumDur (finalStates acc) = 0 := by
  unfold finalStates
  split <;> simp [sumDur]

/-! ## Claim theorems: out-of-order clamping, terminal zero duration -/

/-- C7: when an event's timestamp is smaller than the running timestamp of the
previous event, the builder's loop iteration clamps the elapsed time to zero,
pushes no new state, and still applies the event's effect to the running
accumulators. -/
theorem out_of_order_clamped (acc : BuildAcc) (e : RecordedEvent)
    (h : e.timestamp_us < acc.last_timestamp_us) :
    e.timestamp_us - acc.last_timestamp_us = 0 ∧
      step acc e = applyEvent acc e ∧ (applyEvent acc e).states = acc.states := by
  have hf : flush acc e = acc := by
    unfold flush
    dsimp only
    rw [if_neg (by omega)]
  exact ⟨by omega, by unfold step; rw [hf], applyEvent_states acc e⟩

/-- Witness for C7: a concrete out-of-order event applied to a concrete
accumulator. -/
theorem out_of_order_clamped_witness :
    (3000 : ℕ) - 5000 = 0 ∧
      step ⟨[], ∅, 5000, (0, 0), (0, 0)⟩ ⟨3000, EV_KEY, 17, 1⟩ =
        applyEvent ⟨[], ∅, 5000, (0, 0), (0, 0)⟩ ⟨3000, EV_KEY, 17, 1⟩ ∧
      (applyEvent ⟨[], ∅, 5000, (0, 0), (0, 0)⟩ ⟨3000, EV_KEY, 17, 1⟩).states = [] :=
  out_of_order_clamped ⟨[], ∅, 5000, (0, 0), (0, 0)⟩ ⟨3000, EV_KEY, 17, 1⟩ (by decide)

theorem mergeAux_dropLast_pos (l : List MacroState) (c : MacroState)
    (h : ∀ s ∈ (c :: l).dropLast, 0 < s.duration_ms) :
    ∀ s ∈ (mergeAux c l).dropLast, 0 < s.duration_ms := by
  induction l generalizing c with
  | nil => intro s hs; simp [mergeAux] at hs
  | cons s rest ih =>
    have hc : 0 < c.duration_ms := by
      refine h c ?_
      rw [List.dropLast_cons_of_ne_nil (by simp)]
      exact List.mem_cons_self _ _
    intro x hx
    unfold mergeAux at hx
    split at hx
    · refine ih { c with duration_ms := c.duration_ms + s.duration_ms } ?_ x hx
      intro y hy
      cases rest with
      | nil => simp at hy
      | cons r t =>
        rw [List.dropLast_cons_of_ne_nil (by simp)] at hy
        rcases List.mem_cons.mp hy with h' | h'
        · rw [h']
          exact Nat.lt_of_lt_of_le hc (Nat.le_add_right _ _)
        · refine h y ?_
          rw [List.dropLast_cons_of_ne_nil (by simp),
            List.dropLast_cons_of_ne_nil (by simp)]
          exact List.mem_cons_of_mem _ (List.mem_cons_of_mem _ h')
    · rw [List.dropLast_cons_of_ne_nil (mergeAux_ne_nil rest s)] at hx
      rcases List.mem_cons.mp hx with h' | h'
      · rw [h']; exact hc
      · refine ih s ?_ x h'
        intro y hy
        refine h y ?_
        rw [List.dropLast_cons_of_ne_nil (by simp)]
        exact List.mem_cons_of_mem _ hy

theorem merge_dropLast_pos (l : List MacroState)
    (h : ∀ s ∈ l.dropLast, 0 < s.duration_ms) :
    ∀ s ∈ (merge_consecutive_states l).dropLast, 0 < s.duration_ms := by
  cases l with
  | nil => intro s hs; simp [merge_consecutive_states] at hs
  | cons c rest => exact mergeAux_dropLast_pos rest c h

/-- C8: in the output of `events_to_states` a state of zero duration can only
be the last element — every state other than the last has positive duration. -/
theorem zero_duration_terminal (events : List RecordedEvent) :
    ∀ s ∈ (events_to_states events).dropLast, 0 < s.duration_ms := by
  intro s hs
  rw [events_to_states] at hs
  split at hs
  · simp at hs
  · refine merge_dropLast_pos _ ?_ s hs
    intro x hx
    have hpos : ∀ y ∈ (events.foldl step buildInit).states, 0 < y.duration_ms :=
      foldl_states_pos events buildInit (by intro y hy; simp [buildInit] at hy)
    have hmap : ∀ y ∈ (events.foldl step buildInit).states.map jitterFilter,
        0 < y.duration_ms := by
      intro y hy
      obtain ⟨z, hz, rfl⟩ := List.mem_map.mp hy
      rw [jitterFilter_duration]
      exact hpos z hz
    rcases hfs : finalStates (events.foldl step buildInit) with _ | ⟨f, t⟩
    · rw [hfs, List.append_nil] at hx
      exact hmap x ((List.dropLast_sublist _).subset hx)
    · have ht : t = [] := by
        unfold finalStates at hfs
        split at hfs
        · exact (List.cons.injEq _ _ _ _ ▸ hfs).2.symm ▸ rfl
        · simp at hfs
      rw [ht] at hfs
      rw [hfs, List.map_append] at hx
      simp only [List.map_cons, List.map_nil] at hx
      rw [List.dropLast_concat] at hx
      exact hmap x hx

/-- Witness for C8 at a concrete input and state. -/
theorem zero_duration_terminal_witness :
    (⟨100, {17}, (0, 0), (0, 0)⟩ : MacroState) ∈ (events_to_states scenario_b_events).dropLast ∧
      0 < (⟨100, {17}, (0, 0), (0, 0)⟩ : MacroState).duration_ms :=
  ⟨by decide, zero_duration_terminal scenario_b_events ⟨100, {17}, (0, 0), (0, 0)⟩ (by decide)⟩

/-! ## Claim theorems: the leading state before the first event -/

/-- C9 counterexample: on `leading_events` (first event at 2000 µs), the first
state returned by `events_to_states` is not the 2000/1000 = 2 ms empty state
the claim demands — the leading empty state merges with the following empty
state into a 4 ms one. -/
theorem leading_state_counterexample :
    (events_to_states leading_events).head? ≠
      some ⟨(2000 : ℕ) / 1000, ∅, (0, 0), (0, 0)⟩ := by
  decide

/-- C9 amended: for every input whose first event has a timestamp of at least
1000 µs, `events_to_states` emits a leading state with empty `keys_pressed`
and zero deltas whose duration is at least (not exactly) the first event's
timestamp divided by 1000 — the run-length merge can absorb following
empty-signature intervals into it. -/
theorem leading_state_amended (e0 : RecordedEvent) (rest : List RecordedEvent)
    (h : 1000 ≤ e0.timestamp_us) :
    ∃ u t, events_to_states (e0 :: rest) = u :: t ∧ u.keys_pressed = ∅ ∧
      u.mouse_delta = (0, 0) ∧ u.scroll_delta = (0, 0) ∧
      e0.timestamp_us / 1000 ≤ u.duration_ms := by
  have h1 : (step buildInit e0).states = [⟨e0.timestamp_us / 1000, ∅, (0, 0), (0, 0)⟩] := by
    unfold step
    rw [applyEvent_states]
    unfold flush buildInit
    dsimp only
    rw [if_pos (by omega : (0 : ℕ) < e0.timestamp_us - 0),
      if_pos (by omega : (0 : ℕ) < (e0.timestamp_us - 0) / 1000)]
    simp
  obtain ⟨dd, hdd⟩ := foldl_states_append rest (step buildInit e0)
  rw [h1] at hdd
  obtain ⟨u, t, hm, hk, hmo, hsc, hd⟩ :=
    mergeAux_head ((dd ++ finalStates (rest.foldl step (step buildInit e0))).map jitterFilter)
      ⟨e0.timestamp_us / 1000, ∅, (0, 0), (0, 0)⟩
  refine ⟨u, t, ?_, hk, hmo, hsc, hd⟩
  rw [events_to_states, if_neg (by simp)]
  show merge_consecutive_states
      (((rest.foldl step (step buildInit e0)).states ++
        finalStates (rest.foldl step (step buildInit e0))).map jitterFilter) = u :: t
  rw [hdd]
  simp only [List.cons_append, List.nil_append, List.map_cons]
  exact hm

/-- Witness for C9 at a concrete input: a key press at 2000 µs. -/
theorem leading_state_witness :
    ∃ u t, events_to_states [⟨2000, EV_KEY, 17, 1⟩] = u :: t ∧ u.keys_pressed = ∅ ∧
      u.mouse_delta = (0, 0) ∧ u.scroll_delta = (0, 0) ∧
      (⟨2000, EV_KEY, 17, 1⟩ : RecordedEvent).timestamp_us / 1000 ≤ u.duration_ms :=
  leading_state_amended ⟨2000, EV_KEY, 17, 1⟩ [] (by decide)

/-! ## Claim theorems: duration accounting -/

theorem sumDur_cons (s : MacroState) (l : List MacroState) :
    sumDur (s :: l) = s.duration_ms + sumDur l := by
  simp [sumDur]

theorem sumDur_mergeAux (l : List MacroState) (c : MacroState) :
    sumDur (mergeAux c l) = c.duration_ms + sumDur l := by
  induction l generalizing c with
  | nil => simp [mergeAux, sumDur]
  | cons s rest ih =>
    unfold mergeAux
    split
    · rw [ih, sumDur_cons]
      dsimp only
      omega
    · rw [sumDur_cons, ih, sumDur_cons]

theorem sumDur_merge (l : List MacroState) :
    sumDur (merge_consecutive_states l) = sumDur l := by
  cases l with
  | nil => rfl
  | cons c rest =>
    rw [merge_consecutive_states]
    rw [sumDur_mergeAux]
    simp [sumDur]

theorem sumDur_map_jitter (l : List MacroState) :
    sumDur (l.map jitterFilter) = sumDur l := by
  induction l with
  | nil => rfl
  | cons s rest ih =>
    simp only [List.map_cons, sumDur, List.sum_cons]
    rw [← sumDur, ← sumDur, ih, jitterFilter_duration]

theorem sumDur_exclTrailingZero (l : List MacroState) :
    sumDur (exclTrailingZero l) = sumDur l := by
  unfold exclTrailingZero
  cases hl : l.getLast? with
  | none => rfl
  | some s =>
    dsimp only
    split_ifs with h
    · have hne : l ≠ [] := by
        intro h'
        rw [h'] at hl
        simp at hl
      have hs : s = l.getLast hne := by
        rw [List.getLast?_eq_getLast l hne] at hl
        exact (Option.some.injEq _ _ ▸ hl).symm
      conv_rhs => rw [← List.dropLast_concat_getLast hne]
      rw [sumDur_append]
      simp [sumDur, ← hs, h]
    · rfl

theorem sumElapsed_getLastD (es : List RecordedEvent) (last : ℕ) (hd : 1000 ∣ last)
    (hdiv : ∀ e ∈ es, 1000 ∣ e.timestamp_us)
    (hchain : List.Chain (· ≤ ·) last (es.map (·.timestamp_us))) :
    sumElapsed last es + last / 1000 = (es.map (·.timestamp_us)).getLastD last / 1000 := by
  induction es generalizing last with
  | nil => simp [sumElapsed]
  | cons e es ih =>
    rw [List.map_cons, List.chain_cons] at hchain
    rw [List.map_cons, List.getLastD_cons]
    have h1 : 1000 ∣ e.timestamp_us := hdiv e (List.mem_cons_self _ _)
    have ih' := ih e.timestamp_us h1 (fun x hx => hdiv x (List.mem_cons_of_mem _ hx)) hchain.2
    rw [sumElapsed]
    omega

/-- C2 counterexample: for the input `accounting_events` (non-empty, strictly
increasing timestamps 1000000 µs and 2000000 µs), the duration sum of the
output of `events_to_states`, excluding a trailing zero-duration state, is
2000 ms, not `(2000000 − 1000000) / 1000 = 1000` as the claim demands: the
builder measures from timestamp 0, not from the first event. -/
theorem duration_accounting_counterexample :
    sumDur (exclTrailingZero (events_to_states accounting_events)) ≠
      ((2000000 : ℕ) - 1000000) / 1000 := by
  decide

/-- C2 amended: for every non-empty input with non-decreasing timestamps that
are all multiples of 1000 µs, the duration sum of the output of
`events_to_states` (excluding a trailing zero-duration state) equals the last
timestamp divided by 1000 — elapsed time is measured from the fixed origin 0,
not from the first event's timestamp, and the per-event millisecond flooring
is exact only at millisecond granularity. -/
theorem duration_accounting_amended (events : List RecordedEvent) (hne : events ≠ [])
    (hsorted : List.Chain' (· ≤ ·) (events.map (·.timestamp_us)))
    (hdiv : ∀ e ∈ events, 1000 ∣ e.timestamp_us) :
    sumDur (exclTrailingZero (events_to_states events)) =
      (events.getLast hne).timestamp_us / 1000 := by
  rw [sumDur_exclTrailingZero]
  rw [events_to_states, if_neg (by simp [List.isEmpty_iff, hne])]
  show sumDur (merge_consecutive_states
    (((events.foldl step buildInit).states ++
      finalStates (events.foldl step buildInit)).map jitterFilter)) = _
  rw [sumDur_merge, sumDur_map_jitter, sumDur_append, sumDur_finalStates,
    sumDur_foldl]
  have hchain : List.Chain (· ≤ ·) 0 (events.map (·.timestamp_us)) := by
    cases hm : events.map (·.timestamp_us) with
    | nil => exact List.Chain.nil
    | cons a l =>
      rw [hm] at hsorted
      exact List.chain_cons.mpr ⟨Nat.zero_le a, hsorted⟩
  have hsum := sumElapsed_getLastD events 0 (Dvd.intro 0 rfl) hdiv hchain
  have hlast : (events.map (·.timestamp_us)).getLastD 0 =
      (events.getLast hne).timestamp_us := by
    rw [List.getLastD_eq_getLast?, List.getLast?_map,
      List.getLast?_eq_getLast events hne]
    rfl
  rw [hlast] at hsum
  simp [buildInit, sumDur] at hsum ⊢
  omega

/-- Witness for C2 amended, at Scenario B's input. -/
theorem duration_accounting_witness :
    sumDur (exclTrailingZero (events_to_states scenario_b_events)) =
      (scenario_b_events.getLast (by decide)).timestamp_us / 1000 :=
  duration_accounting_amended scenario_b_events (by decide)
    (by norm_num [scenario_b_events, List.chain'_cons]) (by decide)

/-! ## Claim theorems: playback releases every held key -/

theorem replayKeysFrom_append (ks : Finset ℕ) (a b : List RecordedEvent) :
    replayKeysFrom ks (a ++ b) = replayKeysFrom (replayKeysFrom ks a) b := by
  simp [replayKeysFrom, List.foldl_append]

theorem replayKeysFrom_releasePairs (keys : List ℕ) (ks : Finset ℕ) (ts : ℕ) :
    replayKeysFrom ks (releasePairs ts keys) = ks \ keys.toFinset := by
  induction keys generalizing ks with
  | nil => simp [releasePairs, replayKeysFrom]
  | cons k rest ih =>
    simp only [releasePairs, List.flatMap_cons] at ih ⊢
    rw [replayKeysFrom_append]
    have h1 : replayKeysFrom ks [keyEvent ts k 0, synEvent ts] = ks.erase k := rfl
    rw [h1, ih, List.toFinset_cons, Finset.erase_eq]
    ext x
    simp only [Finset.mem_sdiff, Finset.mem_insert, Finset.mem_singleton]
    tauto

theorem replayKeysFrom_pressPairs (keys : List ℕ) (ks : Finset ℕ) (ts : ℕ) :
    replayKeysFrom ks (pressPairs ts keys) = ks ∪ keys.toFinset := by
  induction keys generalizing ks with
  | nil => simp [pressPairs, replayKeysFrom]
  | cons k rest ih =>
    simp only [pressPairs, List.flatMap_cons] at ih ⊢
    rw [replayKeysFrom_append]
    have h1 : replayKeysFrom ks [keyEvent ts k 1, synEvent ts] = insert k ks := rfl
    rw [h1, ih, List.toFinset_cons, Finset.insert_union, Finset.union_insert]

theorem replayKeysFrom_mouse (ks : Finset ℕ) (ts : ℕ) (d : ℤ × ℤ) :
    replayKeysFrom ks (mouseEvents ts d) = ks := by
  unfold mouseEvents
  split_ifs <;>
    simp [replayKeysFrom, replayStep, relEvent, synEvent, EV_REL, EV_KEY, EV_SYN]

theorem replayKeysFrom_scroll (ks : Finset ℕ) (ts : ℕ) (d : ℤ × ℤ) :
    replayKeysFrom ks (scrollEvents ts d) = ks := by
  unfold scrollEvents
  split_ifs <;>
    simp [replayKeysFrom, replayStep, relEvent, synEvent, EV_REL, EV_KEY, EV_SYN]

theorem replay_playStep (acc : PlayAcc) (s : MacroState)
    (h : replayKeys acc.events = acc.current_keys) :
    replayKeys (playStep acc s).events = s.keys_pressed := by
  show replayKeysFrom ∅
    (acc.events ++ releasePairs _ _ ++ pressPairs _ _ ++ mouseEvents _ _ ++ scrollEvents _ _) =
      s.keys_pressed
  rw [replayKeysFrom_append, replayKeysFrom_append, replayKeysFrom_append,
    replayKeysFrom_append]
  rw [show replayKeysFrom ∅ acc.events = acc.current_keys from h]
  rw [replayKeysFrom_releasePairs, Finset.sort_toFinset,
    replayKeysFrom_pressPairs, Finset.sort_toFinset,
    replayKeysFrom_mouse, replayKeysFrom_scroll]
  rw [Finset.sdiff_sdiff_self_left]
  ext x
  simp only [Finset.mem_union, Finset.mem_inter, Finset.mem_sdiff]
  tauto

theorem replay_foldl (states : List MacroState) (acc : PlayAcc)
    (h : replayKeys acc.events = acc.current_keys) :
    replayKeys ((states.foldl playStep acc).events) =
      (states.foldl playStep acc).current_keys := by
  induction states generalizing acc with
  | nil => exact h
  | cons s rest ih =>
    exact ih (playStep acc s) ((replay_playStep acc s h).trans rfl)

theorem play_current_keys (states : List MacroState) (acc : PlayAcc) :
    (states.foldl playStep acc).current_keys =
      (states.map (·.keys_pressed)).getLastD acc.current_keys := by
  induction states generalizing acc with
  | nil => rfl
  | cons s rest ih =>
    rw [List.foldl_cons, ih, List.map_cons, List.getLastD_cons]
    rfl

theorem play_timestamp (states : List MacroState) (acc : PlayAcc) :
    (states.foldl playStep acc).timestamp_us = acc.timestamp_us + sumDur states * 1000 := by
  induction states generalizing acc with
  | nil => simp [sumDur]
  | cons s rest ih =>
    rw [List.foldl_cons, ih, sumDur_cons]
    show acc.timestamp_us + s.duration_ms * 1000 + _ = _
    omega

/-- C6: after the main loop, `states_to_events` emits one Key-release plus one
Synchronization event at the final clock timestamp for every key in the last
state's `keys_pressed`, and the net held-key set after replaying the whole
output event stream is empty. -/
theorem playback_releases_all (states : List MacroState) :
    replayKeys (states_to_events states) = ∅ ∧
      ∀ k ∈ lastKeys states,
        keyEvent (sumDur states * 1000) k 0 ∈ states_to_events states ∧
          synEvent (sumDur states * 1000) ∈ states_to_events states := by
  have hloop := replay_foldl states playInit rfl
  have hkeys : (states.foldl playStep playInit).current_keys = lastKeys states := by
    rw [play_current_keys]
    rfl
  have hts : (states.foldl playStep playInit).timestamp_us = sumDur states * 1000 := by
    rw [play_timestamp]
    simp [playInit]
  constructor
  · show replayKeysFrom ∅ ((states.foldl playStep playInit).events ++ releasePairs _ _) = ∅
    rw [replayKeysFrom_append,
      show replayKeysFrom ∅ (states.foldl playStep playInit).events = _ from hloop,
      replayKeysFrom_releasePairs, Finset.sort_toFinset]
    exact Finset.sdiff_self _
  · intro k hk
    have hk' : k ∈ (states.foldl playStep playInit).current_keys := by
      rw [hkeys]; exact hk
    rw [← hts]
    show _ ∈ (states.foldl playStep playInit).events ++ releasePairs _ _ ∧
      _ ∈ (states.foldl playStep playInit).events ++ releasePairs _ _
    constructor
    · refine List.mem_append_right _ ?_
      simp only [releasePairs]
      exact List.mem_flatMap.mpr ⟨k, by rw [Finset.mem_sort]; exact hk', by simp⟩
    · refine List.mem_append_right _ ?_
      simp only [releasePairs]
      exact List.mem_flatMap.mpr ⟨k, by rw [Finset.mem_sort]; exact hk', by simp⟩

/-- Witness for C6 at a concrete single-state input holding key 17. -/
theorem playback_releases_all_witness :
    replayKeys (states_to_events [⟨100, {17}, (0, 0), (0, 0)⟩]) = ∅ ∧
      (keyEvent (sumDur [⟨100, {17}, (0, 0), (0, 0)⟩] * 1000) 17 0 ∈
          states_to_events [⟨100, {17}, (0, 0), (0, 0)⟩] ∧
        synEvent (sumDur [⟨100, {17}, (0, 0), (0, 0)⟩] * 1000) ∈
          states_to_events [⟨100, {17}, (0, 0), (0, 0)⟩]) :=
  ⟨(playback_releases_all _).1, (playback_releases_all _).2 17 (by decide)⟩

/-! ## Claim theorems: keymap round trip -/

theorem qwerty_snd_nodup : ((qwerty_pairs.map (fun p => p.2)).Nodup) := by decide

theorem qwerty_upper_fixed : ∀ p ∈ qwerty_pairs, to_uppercase p.2 = p.2 := by decide

/-- C10: whenever `keycode_to_name` maps a keycode to a name,
`name_to_keycode` maps that name back to the same keycode, and it returns the
same result for any capitalization of the name (any string with the same
uppercasing). -/
theorem keymap_roundtrip (k : ℕ) (name : String) (h : keycode_to_name k = some name) :
    name_to_keycode name = some k ∧
      ∀ s : String, to_uppercase s = to_uppercase name → name_to_keycode s = some k := by
  unfold keycode_to_name at h
  obtain ⟨p, hp, hp2⟩ := Option.map_eq_some'.mp h
  have hpmem : p ∈ qwerty_pairs := List.mem_of_find?_eq_some hp
  have hpk : p.1 = k := by simpa using List.find?_some hp
  have hupper : to_uppercase name = name := by
    rw [← hp2]
    exact qwerty_upper_fixed p hpmem
  have hfind : ∀ s : String, to_uppercase s = name → name_to_keycode s = some k := by
    intro s hs
    unfold name_to_keycode
    rw [hs]
    have hex : ∃ x, x ∈ qwerty_pairs ∧ (x.2 == name) = true :=
      ⟨p, hpmem, by rw [hp2]; exact beq_self_eq_true name⟩
    obtain ⟨q, hq⟩ := Option.isSome_iff_exists.mp (List.find?_isSome.mpr hex)
    have hqmem : q ∈ qwerty_pairs := List.mem_of_find?_eq_some hq
    have hq2 : q.2 = name := by simpa using List.find?_some hq
    have hqp : q = p :=
      List.inj_on_of_nodup_map qwerty_snd_nodup hqmem hpmem (by rw [hq2, hp2])
    rw [hq]
    simp [hqp, hpk]
  exact ⟨hfind name hupper, fun s hs => hfind s (hs.trans hupper)⟩

/-- Witness for C10: keycode 17 maps to "W", and both "W" and the
lowercase "w" map back to 17. -/
theorem keymap_roundtrip_witness :
    keycode_to_name 17 = some "W" ∧ name_to_keycode "W" = some 17 ∧
      name_to_keycode "w" = some 17 :=
  ⟨by decide, (keymap_roundtrip 17 "W" (by decide)).1,
    (keymap_roundtrip 17 "W" (by decide)).2 "w" (by decide)⟩

end EvKey
